import Mathlib

set_option maxRecDepth 8000
set_option linter.unusedVariables false

/-!
Shallow embedding of the netftp minio storage drivers.

The repository contains two revisions of a minio-backed FTP storage driver:
the current one (`src/driver/minio/minio.go`, modelled in namespace `Driver`)
and an older one (`MinioDriver` in an unnamed source file, modelled in
namespace `MinioDriver`).  The minio object store is modelled as an
association list from keys (lists of characters) to byte contents, with the
S3 listing semantics (non-recursive listings collapse deeper keys into
common prefixes ending in `/`) reproduced faithfully.  Fallible client
operations return `Except MErr`; injected fault flags model backend
failures where a claim needs them.
-/

instance {ε α : Type} [DecidableEq ε] [DecidableEq α] :
    DecidableEq (Except ε α)
  | .ok a, .ok b => decidable_of_iff (a = b) (by simp)
  | .error a, .error b => decidable_of_iff (a = b) (by simp)
  | .ok _, .error _ => isFalse (by simp)
  | .error _, .ok _ => isFalse (by simp)

abbrev Key := List Char
abbrev Bytes := List Nat
abbrev Store := List (Key × Bytes)

/-- Errors produced by the modelled minio client and drivers. -/
inductive MErr where
  | noSuchKey
  | copyToSelf
  | seekPastEnd
  | negativeSeek
  | unsupportedOffset (offset size : Int)
  | notImplemented
  | notADirectory
  | injected (n : Nat)
deriving DecidableEq

/-- An error that signals an unsupported operation (the old driver's
`ErrNotImplemented` sentinel and the new driver's distinct
"It's unsupported that offset ..." message), as opposed to generic
I/O or not-found failures. -/
def isUnsupportedErr : MErr → Bool
  | .unsupportedOffset _ _ => true
  | .notImplemented => true
  | _ => false

structure ObjectInfo where
  key : Key
  size : Int
deriving DecidableEq

/-- The essential fields of `minioFileInfo` (name, size, directory flag). -/
structure StatInfo where
  name : Key
  size : Int
  isDir : Bool
deriving DecidableEq

/-- Model of `RemoveObject`: S3 object deletion, a no-op when the key is absent. -/
def removeObject (key : Key) (s : Store) : Store :=
  s.filter (fun kd => kd.1 ≠ key)

/-- Model of `PutObject`: create or overwrite the object stored at `key`. -/
def putObject (key : Key) (d : Bytes) (s : Store) : Store :=
  (key, d) :: removeObject key s

/-- Model of `StatObject`: metadata of the object stored at exactly `key`. -/
def statObject (s : Store) (key : Key) : Except MErr ObjectInfo :=
  match List.lookup key s with
  | some d => .ok ⟨key, (d.length : Int)⟩
  | none => .error .noSuchKey

/-- Model of `strings.HasSuffix(v, "/")`. -/
def endsSlash (v : Key) : Bool := v.getLast? == some '/'

/-- Model of `buildMinioPath`: `strings.TrimPrefix(p, "/")`. -/
def buildMinioPath (p : Key) : Key :=
  match p with
  | '/' :: rest => rest
  | _ => p

/-- Model of `buildMinioDir`: the trimmed path with a trailing `/` ensured. -/
def buildMinioDir (p : Key) : Key :=
  let v := buildMinioPath p
  if endsSlash v then v else v ++ ['/']

/-- Recursive `ListObjects`: every object whose key extends the given
prefix string, in store order. -/
def listRec (s : Store) (pfx : Key) : List ObjectInfo :=
  (s.filter (fun kd => pfx.isPrefixOf kd.1)).map (fun kd => ⟨kd.1, (kd.2.length : Int)⟩)

/-- Worker for non-recursive `ListObjects` with delimiter `/`: keys whose
remainder after the prefix contains a `/` are collapsed into a common
prefix entry (emitted once, tracked by `seen`); other matching keys are
emitted as objects. -/
def listNonRecGo (pfx : Key) : Store → List Key → List ObjectInfo
  | [], _ => []
  | (k, d) :: rest, seen =>
    if pfx.isPrefixOf k then
      let r := k.drop pfx.length
      if '/' ∈ r then
        let cp := pfx ++ r.takeWhile (fun c => c ≠ '/') ++ ['/']
        if cp ∈ seen then listNonRecGo pfx rest seen
        else ⟨cp, 0⟩ :: listNonRecGo pfx rest (cp :: seen)
      else ⟨k, (d.length : Int)⟩ :: listNonRecGo pfx rest seen
    else listNonRecGo pfx rest seen

/-- Non-recursive `ListObjects` with delimiter `/`. -/
def listNonRec (s : Store) (pfx : Key) : List ObjectInfo :=
  listNonRecGo pfx s []

/-- Model of `Driver.isDir` of the current driver, fault-free backend: stat the
slash-terminated key; if that fails, report a directory exactly when the
non-recursive listing with that prefix is non-empty (every listed entry
has the prefix, so the loop's `HasPrefix` check always fires). -/
def Driver.isDir (s : Store) (path : Key) : Bool :=
  let p := buildMinioDir path
  match List.lookup p s with
  | some _ => endsSlash p
  | none => !(listNonRec s p).isEmpty

/-- Model of `Driver.Stat` of the current driver. -/
def Driver.Stat (s : Store) (path : Key) : Except MErr StatInfo :=
  if path = ['/'] then .ok ⟨['/'], 0, true⟩
  else
    let p := buildMinioPath path
    match statObject s p with
    | .error _ =>
      if Driver.isDir s p then .ok ⟨path, 0, true⟩
      else .error .notADirectory
    | .ok info => .ok ⟨p, info.size, endsSlash info.key⟩

/-- Model of `Driver.GetFile`: lazily open the object; `Seek(offset, SeekStart)`
performs the first request (failing when the object is absent), rejects a
negative offset, and returns `io.EOF` when the offset exceeds the object
size; then `Stat` yields the size and the remaining count is
`size - offset` with the stream positioned at `offset`. -/
def Driver.GetFile (s : Store) (path : Key) (offset : Int) :
    Except MErr (Int × Bytes) :=
  match List.lookup (buildMinioPath path) s with
  | none => .error .noSuchKey
  | some b =>
    if offset < 0 then .error .negativeSeek
    else if (b.length : Int) < offset then .error .seekPastEnd
    else .ok ((b.length : Int) - offset, b.drop offset.toNat)

/-- Model of `Driver.PutFile` of the current driver.  `offset == -1` overwrites via
`PutObject`.  Otherwise the object is stat'ed (propagating the stat
error), a non-matching offset yields the distinct "It's unsupported"
error, and a matching offset writes the new data to `p ++ ".tmp"` and
composes the destination from the sources `[tempFile, p]` in that order;
the deferred `DeleteFile(tempFile)` runs on every return path of the
non-`-1` branch. -/
def Driver.PutFile (s : Store) (destPath : Key) (data : Bytes) (offset : Int) :
    Except MErr Int × Store :=
  let p := buildMinioPath destPath
  if offset = -1 then (.ok (data.length : Int), putObject p data s)
  else
    let tmp := p ++ ['.', 't', 'm', 'p']
    match List.lookup p s with
    | none => (.error .noSuchKey, removeObject tmp s)
    | some old =>
      if offset ≠ (old.length : Int) then
        (.error (.unsupportedOffset offset (old.length : Int)), removeObject tmp s)
      else
        let s1 := putObject tmp data s
        let s2 := putObject p (data ++ old) s1
        (.ok (data.length : Int), removeObject tmp s2)

/-- Model of `Driver.MakeDir`: `PutObject` of a zero-length object at the
slash-terminated key. -/
def Driver.MakeDir (s : Store) (path : Key) : Except MErr Unit × Store :=
  (.ok (), putObject (buildMinioDir path) [] s)

/-- Model of `MinioDriver.MakeDir` of the older driver revision: `return nil`,
no store mutation at all. -/
def MinioDriver.MakeDir (s : Store) (path : Key) : Except MErr Unit × Store :=
  (.ok (), s)

/-- Model of `MinioDriver.isDir` of the older driver revision, fault-free
backend: list non-recursively with the un-slashed trimmed path as prefix
and report a directory exactly when any entry arrives at all (the loop
returns true on the first entry, with no further check). -/
def MinioDriver.isDir (s : Store) (path : Key) : Bool :=
  !(listNonRec s (buildMinioPath path)).isEmpty

/-- Model of `MinioDriver.Stat` of the older driver revision: the root is
an explicit directory; otherwise the exact trimmed key is stat'ed first
and returned with the `isDir` field left at its zero value (false), and
on a stat failure the un-slashed-prefix `isDir` fallback decides between
a directory report and the "Not a directory" error. -/
def MinioDriver.Stat (s : Store) (path : Key) : Except MErr StatInfo :=
  if path = ['/'] then .ok ⟨['/'], 0, true⟩
  else
    let p := buildMinioPath path
    match statObject s p with
    | .error _ =>
      if MinioDriver.isDir s path then .ok ⟨path, 0, true⟩
      else .error .notADirectory
    | .ok info => .ok ⟨p, info.size, false⟩

/-- Model of `Driver.DeleteFile` (identical in both revisions): a single
`RemoveObject` on the trimmed path. -/
def Driver.DeleteFile (s : Store) (path : Key) : Except MErr Unit × Store :=
  (.ok (), removeObject (buildMinioPath path) s)

/-- Model of `Driver.DeleteDir` of the current driver, fault-free backend: list
recursively with the trimmed path as prefix and remove every listed
object. -/
def Driver.DeleteDir (s : Store) (path : Key) : Except MErr Unit × Store :=
  (.ok (), (listRec s (buildMinioPath path)).foldl
    (fun acc o => removeObject o.key acc) s)

/-- Model of `MinioDriver.DeleteDir` of the older revision: the listing is
non-recursive. -/
def MinioDriver.DeleteDir (s : Store) (path : Key) : Except MErr Unit × Store :=
  (.ok (), (listNonRec s (buildMinioPath path)).foldl
    (fun acc o => removeObject o.key acc) s)

/-- Model of `CopyObject` with an injected-fault flag: server-side copy fails when
the backend faults, when the source is absent, or when source and
destination coincide (S3 rejects a metadata-unchanged copy onto itself). -/
def copyObject (s : Store) (fault : Bool) (dstKey srcKey : Key) :
    Except MErr Store :=
  if fault then .error (.injected 0)
  else
    match List.lookup srcKey s with
    | none => .error .noSuchKey
    | some d => if dstKey = srcKey then .error .copyToSelf
                else .ok (putObject dstKey d s)

/-- Model of `RemoveObject` with an injected-fault flag. -/
def removeObjectF (s : Store) (fault : Bool) (key : Key) :
    Except MErr Store :=
  if fault then .error (.injected 1) else .ok (removeObject key s)

/-- Model of `Driver.Rename` (identical in both revisions): `CopyObject` to the
destination, then `RemoveObject` of the source; an error at either step
is returned and stops the sequence. -/
def Driver.Rename (s : Store) (copyFault removeFault : Bool)
    (fromPath toPath : Key) : Except MErr Unit × Store :=
  match copyObject s copyFault (buildMinioPath toPath) (buildMinioPath fromPath) with
  | .error e => (.error e, s)
  | .ok s1 =>
    match removeObjectF s1 removeFault (buildMinioPath fromPath) with
    | .error e => (.error e, s1)
    | .ok s2 => (.ok (), s2)

/-- Model of `MinioDriver.PutFile` of the older revision: `appendData == false`
overwrites via `PutObject`, `appendData == true` returns
`ErrNotImplemented`. -/
def MinioDriver.PutFile (s : Store) (destPath : Key) (data : Bytes)
    (appendData : Bool) : Except MErr Int × Store :=
  if !appendData then
    (.ok (data.length : Int), putObject (buildMinioPath destPath) data s)
  else (.error .notImplemented, s)

/-- One entry received from a `ListObjects` channel: either an object or
an enumeration error (`ObjectInfo.Err`). -/
inductive LEntry where
  | obj (o : ObjectInfo)
  | fail (e : MErr)
deriving DecidableEq

/-- The `minioFileInfo` passed to the `ListDir` callback by the current
driver: the name is `strings.TrimPrefix(object.Key, p)` and the
directory flag is `strings.HasSuffix(object.Key, "/")`. -/
def toChildInfo (p : Key) (o : ObjectInfo) : StatInfo :=
  ⟨if p.isPrefixOf o.key then o.key.drop p.length else o.key, o.size,
   endsSlash o.key⟩

/-- The `ListDir` loop of the current driver over the channel entries:
an enumeration error is returned at once, the entry whose key equals the
listing prefix is skipped, and a callback error stops the loop; the
first component collects the infos the callback was invoked on. -/
def listDirGo (p : Key) (visit : StatInfo → Option MErr) :
    List LEntry → List StatInfo × Option MErr
  | [] => ([], none)
  | .fail e :: _ => ([], some e)
  | .obj o :: rest =>
    if o.key = p then listDirGo p visit rest
    else
      match visit (toChildInfo p o) with
      | some e => ([toChildInfo p o], some e)
      | none =>
        let pr := listDirGo p visit rest
        (toChildInfo p o :: pr.1, pr.2)

/-- The listing prefix computed by the current driver's `ListDir`:
`buildMinioDir(path)`, with the root `"/"` replaced by `""`. -/
def listDirPre (path : Key) : Key :=
  let p := buildMinioDir path
  if p = ['/'] then [] else p

/-- Model of `Driver.ListDir` of the current driver with a fault-free backend
(the channel delivers exactly the non-recursive listing). -/
def Driver.ListDir (s : Store) (path : Key)
    (visit : StatInfo → Option MErr) : List StatInfo × Option MErr :=
  listDirGo (listDirPre path) visit
    ((listNonRec s (listDirPre path)).map .obj)

/-- The `ListDir` loop of the older driver revision: the prefix is the
un-slashed trimmed path, no entry is skipped, the callback receives the
full object key as the name, and the directory flag is never set. -/
def oldListGo (visit : StatInfo → Option MErr) :
    List LEntry → List StatInfo × Option MErr
  | [] => ([], none)
  | .fail e :: _ => ([], some e)
  | .obj o :: rest =>
    match visit ⟨o.key, o.size, false⟩ with
    | some e => ([⟨o.key, o.size, false⟩], some e)
    | none =>
      let pr := oldListGo visit rest
      (⟨o.key, o.size, false⟩ :: pr.1, pr.2)

/-- Model of `MinioDriver.ListDir` of the older driver revision, fault-free. -/
def MinioDriver.ListDir (s : Store) (path : Key)
    (visit : StatInfo → Option MErr) : List StatInfo × Option MErr :=
  oldListGo visit ((listNonRec s (buildMinioPath path)).map .obj)

/-- A name of subdirectory shape: a single path segment followed by `/`. -/
def dirNameB (name : Key) : Bool :=
  (name.getLast? == some '/') && name.dropLast.all (fun c => c ≠ '/')

/-- A name of plain-file shape: non-empty, with no `/` anywhere. -/
def fileNameB (name : Key) : Bool :=
  (decide (name ≠ [])) && name.all (fun c => c ≠ '/')

/-- Second definition, following the spec's words (for comparison with
the `ListDir` code): `name` is an immediate child entry of the directory
with slash-terminated listing prefix `pfx` — either a subdirectory name
`d ++ "/"` such that some stored key extends `pfx ++ d ++ "/"`, or a
plain file name such that an object is stored at exactly `pfx ++ name`. -/
def specImmChildB (s : Store) (pfx name : Key) : Bool :=
  if dirNameB name then s.any (fun kd => (pfx ++ name).isPrefixOf kd.1)
  else fileNameB name && (List.lookup (pfx ++ name) s).isSome

/-- Second definition, following the claim's words (for comparison with
the code's `Driver.isDir`): a marker object stored at the trimmed path
with a trailing `/` appended, or at least one stored object whose key
begins with that slash-terminated string. -/
def specDirCondB (s : Store) (q : Key) : Bool :=
  (List.lookup (buildMinioPath q ++ ['/']) s).isSome ||
  s.any (fun kd => (buildMinioPath q ++ ['/']).isPrefixOf kd.1)

/-- The names passed to the `ListDir` callback by the current driver:
the entry whose key equals the listing prefix is skipped and
`TrimPrefix` is applied to the rest. -/
def childNames (pfx : Key) (l : List ObjectInfo) : List Key :=
  (l.filter (fun o => o.key ≠ pfx)).map
    (fun o => if pfx.isPrefixOf o.key then o.key.drop pfx.length else o.key)

/-- Authentication state of a session (spec section 4.1). -/
inductive AuthState where
  | unauthenticated
  | userNamed (u : Key)
  | authenticated (u : Key)
deriving DecidableEq

/-- The notifier events around a login attempt. -/
inductive HookEvent where
  | beforeLoginUser (u : Key)
  | afterUserLogin (u p : Key) (passMatched : Bool)
deriving DecidableEq

def isAfterUserLogin : HookEvent → Bool
  | .afterUserLogin _ _ _ => true
  | _ => false

/-- Modelled from the spec: the session engine's `USER` handler is not
under `src/` (only its integration test is); per spec section 4.1 a
`USER` command restarts the login sequence from any state. -/
def handleUSER (u : Key) (_st : AuthState) : AuthState := .userNamed u

/-- Modelled from the spec: the session engine's `PASS` handler is not
under `src/` (only its integration test is); per spec sections 4.1 and 8
the `BeforeLoginUser` hook fires before the credential check and
`AfterUserLogin` fires exactly once after it with `passMatched` the
check's result, and a failed check leaves the session unauthenticated. -/
def handlePASS (check : Key → Key → Bool) (st : AuthState) (pass : Key) :
    AuthState × List HookEvent :=
  match st with
  | .userNamed u =>
    let matched := check u pass
    (if matched then .authenticated u else .unauthenticated,
     [.beforeLoginUser u, .afterUserLogin u pass matched])
  | _ => (st, [])

/-- A full login attempt: `USER` then `PASS`. -/
def loginAttempt (check : Key → Key → Bool) (st0 : AuthState)
    (u pass : Key) : AuthState × List HookEvent :=
  handlePASS check (handleUSER u st0) pass

-- ### Basic lemmas about the store operations

theorem lookup_eq_none_iff (k : Key) (s : Store) :
    List.lookup k s = none ↔ ∀ kd ∈ s, kd.1 ≠ k := by
  induction s with
  | nil => simp
  | cons hd tl ih =>
    by_cases h : hd.1 = k
    · simp [List.lookup, h, beq_iff_eq]
    · simp only [List.lookup, show (k == hd.1) = false by
        simpa [beq_iff_eq] using fun hh => h hh.symm]
      simp [ih, h]

theorem lookup_removeObject_self (k : Key) (s : Store) :
    List.lookup k (removeObject k s) = none := by
  rw [lookup_eq_none_iff]
  intro kd hkd
  have := List.of_mem_filter hkd
  simpa using this

theorem lookup_removeObject_ne (k k' : Key) (s : Store) (h : k ≠ k') :
    List.lookup k (removeObject k' s) = List.lookup k s := by
  induction s with
  | nil => rfl
  | cons hd tl ih =>
    simp only [removeObject] at ih ⊢
    rw [List.filter_cons]
    by_cases hh : hd.1 = k'
    · have hkne : (k == hd.1) = false := by
        simp only [beq_eq_false_iff_ne, ne_eq]
        exact fun e => h (hh ▸ e)
      rw [if_neg (by simp [hh])]
      rw [show List.lookup k (hd :: tl) = List.lookup k tl by
        simp [List.lookup, hkne]]
      exact ih
    · rw [if_pos (by simp [hh])]
      by_cases he : k = hd.1
      · have hkeq : (k == hd.1) = true := by simpa [beq_iff_eq] using he
        simp [List.lookup, hkeq]
      · have hkne : (k == hd.1) = false := by
          simpa [beq_eq_false_iff_ne] using he
        simp only [List.lookup, hkne]
        exact ih

theorem lookup_putObject_self (k : Key) (d : Bytes) (s : Store) :
    List.lookup k (putObject k d s) = some d := by
  simp [putObject, List.lookup]

theorem lookup_putObject_ne (k k' : Key) (d : Bytes) (s : Store) (h : k ≠ k') :
    List.lookup k (putObject k' d s) = List.lookup k s := by
  have hk : (k == k') = false := by simpa [beq_iff_eq] using h
  simp [putObject, List.lookup, hk, lookup_removeObject_ne k k' s h]

theorem listNonRecGo_eq_nil (pfx : Key) (s : Store) (seen : List Key)
    (h : ∀ kd ∈ s, ¬ pfx.isPrefixOf kd.1) : listNonRecGo pfx s seen = [] := by
  induction s generalizing seen with
  | nil => rfl
  | cons hd tl ih =>
    obtain ⟨k, d⟩ := hd
    have hhd : ¬ pfx.isPrefixOf k = true := h (k, d) (by simp)
    unfold listNonRecGo
    rw [if_neg hhd]
    exact ih seen (fun kd hkd => h kd (by simp [hkd]))

theorem endsSlash_buildMinioDir (p : Key) :
    endsSlash (buildMinioDir p) = true := by
  simp only [buildMinioDir]
  by_cases h : endsSlash (buildMinioPath p)
  · rw [if_pos h]; exact h
  · rw [if_neg h]
    simp [endsSlash, List.getLast?_concat]

theorem buildMinioDir_ne_nil (p : Key) : buildMinioDir p ≠ [] := by
  intro h
  have hs := endsSlash_buildMinioDir p
  rw [h] at hs
  simp [endsSlash] at hs

theorem path_prefix_dir (p : Key) :
    buildMinioPath p <+: buildMinioDir p := by
  simp only [buildMinioDir]
  by_cases h : endsSlash (buildMinioPath p)
  · rw [if_pos h]
  · rw [if_neg h]
    exact List.prefix_append _ _

theorem buildMinioPath_eq_self (x : Key) (h : x.head? ≠ some '/') :
    buildMinioPath x = x := by
  cases x with
  | nil => rfl
  | cons c r =>
    have hc : c ≠ '/' := fun e => h (by simp [e])
    unfold buildMinioPath
    split
    · rename_i heq
      injection heq with h1 h2
      exact absurd h1 hc
    · rfl

theorem listNonRecGo_nil_iff (pfx : Key) (s : Store) :
    listNonRecGo pfx s [] = [] ↔ ∀ kd ∈ s, ¬ pfx.isPrefixOf kd.1 := by
  constructor
  · intro h
    induction s with
    | nil => intro kd hkd; cases hkd
    | cons hd tl ih =>
      obtain ⟨k, d⟩ := hd
      by_cases hp : pfx.isPrefixOf k
      · exfalso
        simp only [listNonRecGo] at h
        rw [if_pos hp] at h
        by_cases hs : '/' ∈ k.drop pfx.length
        · rw [if_pos hs, if_neg (by simp)] at h
          exact List.cons_ne_nil _ _ h
        · rw [if_neg hs] at h
          exact List.cons_ne_nil _ _ h
      · intro kd hkd
        rcases List.mem_cons.1 hkd with rfl | hmem
        · simpa using hp
        · refine ih ?_ kd hmem
          simp only [listNonRecGo] at h
          rwa [if_neg hp] at h
  · intro h
    exact listNonRecGo_eq_nil pfx s [] h

theorem stat_error_of_no_key (s : Store) (q : Key) (hq : q ≠ ['/'])
    (hnone : List.lookup (buildMinioPath q) s = none)
    (hpfx : ∀ kd ∈ s, ¬ (buildMinioDir (buildMinioPath q)).isPrefixOf kd.1) :
    Driver.Stat s q = .error .notADirectory := by
  have hlp : List.lookup (buildMinioDir (buildMinioPath q)) s = none := by
    rw [lookup_eq_none_iff]
    intro kd hkd he
    exact hpfx kd hkd (by
      rw [he]
      exact List.isPrefixOf_iff_prefix.2 (List.prefix_refl _))
  have hdir : Driver.isDir s (buildMinioPath q) = false := by
    simp only [Driver.isDir, hlp]
    simp [listNonRec, listNonRecGo_eq_nil _ s [] hpfx]
  simp only [Driver.Stat, if_neg hq, statObject, hnone]
  simp [hdir]

theorem foldl_removeObject (L : List ObjectInfo) (s : Store) :
    L.foldl (fun acc o => removeObject o.key acc) s =
      s.filter (fun kd => !(L.any (fun o => o.key == kd.1))) := by
  induction L generalizing s with
  | nil => simp
  | cons o L ih =>
    rw [List.foldl_cons, ih]
    have hsw : ∀ a b : Key, decide (a = b) = (b == a) := by
      intro a b
      rw [Bool.eq_iff_iff]
      simp only [decide_eq_true_eq, beq_iff_eq]
      exact eq_comm
    simp only [removeObject, List.filter_filter]
    refine List.filter_congr (fun kd _ => ?_)
    simp only [List.any_cons, Bool.not_or, decide_not, hsw kd.1 o.key,
      Bool.and_comm]

theorem deleteDir_store (s : Store) (path : Key) :
    (Driver.DeleteDir s path).2 =
      s.filter (fun kd => !(buildMinioPath path).isPrefixOf kd.1) := by
  show (listRec s (buildMinioPath path)).foldl _ s = _
  rw [foldl_removeObject]
  refine List.filter_congr (fun kd hkd => ?_)
  congr 1
  cases hp : (buildMinioPath path).isPrefixOf kd.1 with
  | true =>
    rw [List.any_eq_true]
    refine ⟨⟨kd.1, (kd.2.length : Int)⟩, ?_, by simp⟩
    simp only [listRec, List.mem_map]
    exact ⟨kd, List.mem_filter.2 ⟨hkd, hp⟩, rfl⟩
  | false =>
    rw [Bool.eq_false_iff]
    intro hany
    obtain ⟨o, ho, hko⟩ := List.any_eq_true.1 hany
    simp only [listRec, List.mem_map, List.mem_filter] at ho
    obtain ⟨⟨k1, d1⟩, ⟨_, hpre⟩, rfl⟩ := ho
    rw [beq_iff_eq] at hko
    rw [← hko] at hp
    simp only [hp] at hpre
    cases hpre

-- ### C1: upload/download round trip through the current Driver

/-- C1, counterexample to the claim as stated: after storing the single
byte `97` at `/a` (so `n = 1`), `GetFile` with offset `1 ≥ n` is not an
error: the seek to exactly end-of-object succeeds and the driver returns
remaining count `0` with an empty stream. -/
theorem getFile_offset_eq_size_not_error :
    (Driver.PutFile [] ['/', 'a'] [97] (-1)).1 = .ok 1 ∧
    (1 : Int) ≥ (([97] : Bytes).length : Int) ∧
    Driver.GetFile (Driver.PutFile [] ['/', 'a'] [97] (-1)).2 ['/', 'a'] 1 =
      .ok (0, []) := by decide

/-- C1 (amended): for every byte sequence `b` stored via `PutFile` with
offset `-1`, `PutFile` reports `b.length` bytes written, `GetFile` with
any offset `0 ≤ k ≤ n` returns remaining count `n - k` and the suffix
`b[k:]` (in particular offset `0` returns exactly `b` and count `n`),
and `GetFile` with offset `k > n` is an error. -/
theorem putFile_getFile_roundtrip (s : Store) (path : Key) (b : Bytes)
    (k : Int) :
    (Driver.PutFile s path b (-1)).1 = .ok (b.length : Int) ∧
    (0 ≤ k → k ≤ (b.length : Int) →
      Driver.GetFile (Driver.PutFile s path b (-1)).2 path k =
        .ok ((b.length : Int) - k, b.drop k.toNat)) ∧
    ((b.length : Int) < k →
      Driver.GetFile (Driver.PutFile s path b (-1)).2 path k =
        .error .seekPastEnd) := by
  have hput : (Driver.PutFile s path b (-1)).2 =
      putObject (buildMinioPath path) b s := by
    simp [Driver.PutFile]
  refine ⟨by simp [Driver.PutFile], ?_, ?_⟩
  · intro h0 hk
    rw [hput]
    simp only [Driver.GetFile, lookup_putObject_self]
    rw [if_neg (by omega), if_neg (by omega)]
  · intro hk
    rw [hput]
    simp only [Driver.GetFile, lookup_putObject_self]
    rw [if_neg (by omega), if_pos (by omega)]

/-- C1 witness: round trip at concrete inputs (interior offset and an
offset past end-of-object). -/
theorem putFile_getFile_roundtrip_witness :
    (Driver.GetFile (Driver.PutFile [] ['/', 'a'] [5, 6, 7] (-1)).2
        ['/', 'a'] 1 = .ok (2, [6, 7])) ∧
    (Driver.GetFile (Driver.PutFile [] ['/', 'a'] [5, 6, 7] (-1)).2
        ['/', 'a'] 9 = .error .seekPastEnd) :=
  ⟨(putFile_getFile_roundtrip [] ['/', 'a'] [5, 6, 7] 1).2.1
      (by decide) (by decide),
   (putFile_getFile_roundtrip [] ['/', 'a'] [5, 6, 7] 9).2.2 (by decide)⟩

-- ### C2: PutFile offset semantics

/-- C2, counterexample to the claim as stated: with an empty store,
`PutFile` at offset `0` does not append/resume and yet does not return
an "unsupported" error either — it propagates the stat not-found error,
which is not distinguishable as unsupported. -/
theorem putFile_missing_object_not_unsupported :
    (Driver.PutFile [] ['/', 'a'] [1] 0).1 = .error .noSuchKey ∧
    isUnsupportedErr .noSuchKey = false := by decide

/-- C2 (amended): `PutFile` with offset `-1` creates or overwrites the
object from empty; with offset `≥ 0` it returns the distinguishable
"unsupported" error when an object exists whose size differs from the
offset, but when no object exists at the path it propagates the
underlying stat not-found error instead; the older revision's `PutFile`
with `appendData` set returns the distinguishable `ErrNotImplemented`
sentinel. -/
theorem putFile_offset_semantics (s : Store) (destPath : Key)
    (data old : Bytes) (offset : Int) :
    (offset = -1 →
      Driver.PutFile s destPath data offset =
        (.ok (data.length : Int), putObject (buildMinioPath destPath) data s)) ∧
    (0 ≤ offset → List.lookup (buildMinioPath destPath) s = none →
      (Driver.PutFile s destPath data offset).1 = .error .noSuchKey ∧
      isUnsupportedErr .noSuchKey = false) ∧
    (0 ≤ offset → List.lookup (buildMinioPath destPath) s = some old →
      offset ≠ (old.length : Int) →
      (Driver.PutFile s destPath data offset).1 =
        .error (.unsupportedOffset offset (old.length : Int)) ∧
      isUnsupportedErr (.unsupportedOffset offset (old.length : Int)) = true) ∧
    (MinioDriver.PutFile s destPath data true = (.error .notImplemented, s) ∧
      isUnsupportedErr .notImplemented = true) := by
  refine ⟨?_, ?_, ?_, ⟨rfl, rfl⟩⟩
  · intro h; subst h; simp [Driver.PutFile]
  · intro h hnone
    refine ⟨?_, rfl⟩
    simp only [Driver.PutFile]
    rw [if_neg (by omega)]
    simp [hnone]
  · intro h hsome hne
    refine ⟨?_, rfl⟩
    simp only [Driver.PutFile]
    rw [if_neg (by omega)]
    simp [hsome, hne]

/-- C2 witness: the three `PutFile` branches at concrete inputs. -/
theorem putFile_offset_semantics_witness :
    (Driver.PutFile [] ['/', 'a'] [1] (-1) =
      (.ok 1, putObject (buildMinioPath ['/', 'a']) [1] [])) ∧
    ((Driver.PutFile [] ['/', 'a'] [1] 0).1 = .error .noSuchKey ∧
      isUnsupportedErr .noSuchKey = false) ∧
    ((Driver.PutFile [(['a'], [9])] ['/', 'a'] [1] 5).1 =
      .error (.unsupportedOffset 5 1) ∧
      isUnsupportedErr (.unsupportedOffset 5 1) = true) :=
  ⟨(putFile_offset_semantics [] ['/', 'a'] [1] [] (-1)).1 rfl,
   (putFile_offset_semantics [] ['/', 'a'] [1] [] 0).2.1
      (by decide) (by decide),
   (putFile_offset_semantics [(['a'], [9])] ['/', 'a'] [1] [9] 5).2.2.1
      (by decide) (by decide) (by decide)⟩

-- ### C3: Rename atomic observability

/-- C3: `Rename` is copy-then-delete; on success the object's bytes are
retrievable at the destination and the source key is gone, and when the
copy step fails the store is untouched, so the original object remains
retrievable at the source. -/
theorem rename_atomic_observable (s : Store) (cf rf : Bool)
    (fromPath toPath : Key) :
    ((Driver.Rename s cf rf fromPath toPath).1 = .ok () →
      (∃ d, List.lookup (buildMinioPath fromPath) s = some d ∧
        List.lookup (buildMinioPath toPath)
          (Driver.Rename s cf rf fromPath toPath).2 = some d) ∧
      List.lookup (buildMinioPath fromPath)
        (Driver.Rename s cf rf fromPath toPath).2 = none) ∧
    (∀ e, copyObject s cf (buildMinioPath toPath) (buildMinioPath fromPath) =
        .error e →
      (Driver.Rename s cf rf fromPath toPath).2 = s) := by
  cases hcopy : copyObject s cf (buildMinioPath toPath)
      (buildMinioPath fromPath) with
  | error e =>
    refine ⟨?_, ?_⟩
    · intro hok
      simp [Driver.Rename, hcopy] at hok
    · intro e' _
      simp [Driver.Rename, hcopy]
  | ok s1 =>
    have hstep : ∃ d, List.lookup (buildMinioPath fromPath) s = some d ∧
        buildMinioPath toPath ≠ buildMinioPath fromPath ∧
        s1 = putObject (buildMinioPath toPath) d s := by
      by_cases hf : cf
      · simp [copyObject, hf] at hcopy
      · cases hl : List.lookup (buildMinioPath fromPath) s with
        | none => simp [copyObject, hf, hl] at hcopy
        | some d =>
          by_cases hd : buildMinioPath toPath = buildMinioPath fromPath
          · simp [copyObject, hf, hl, hd] at hcopy
          · refine ⟨d, rfl, hd, ?_⟩
            simp [copyObject, hf, hl, hd] at hcopy
            exact hcopy.symm
    obtain ⟨d, hl, hne, hs1⟩ := hstep
    refine ⟨?_, ?_⟩
    · intro hok
      by_cases hr : rf
      · simp [Driver.Rename, hcopy, removeObjectF, hr] at hok
      · refine ⟨⟨d, hl, ?_⟩, ?_⟩
        · simp only [Driver.Rename, hcopy, removeObjectF, hr,
            Bool.false_eq_true, if_false]
          rw [hs1, lookup_removeObject_ne _ _ _ hne,
            lookup_putObject_self]
        · simp only [Driver.Rename, hcopy, removeObjectF, hr,
            Bool.false_eq_true, if_false]
          exact lookup_removeObject_self _ _
    · intro e' he'
      exact absurd he' (by simp)

/-- C3 witness: a successful rename moves the bytes, and an injected
copy-step failure leaves the store untouched. -/
theorem rename_atomic_observable_witness :
    ((∃ d, List.lookup (buildMinioPath ['/', 'a']) [(['a'], [1])] = some d ∧
        List.lookup (buildMinioPath ['/', 'b'])
          (Driver.Rename [(['a'], [1])] false false ['/', 'a'] ['/', 'b']).2 =
          some d) ∧
      List.lookup (buildMinioPath ['/', 'a'])
        (Driver.Rename [(['a'], [1])] false false ['/', 'a'] ['/', 'b']).2 =
        none) ∧
    (Driver.Rename [(['a'], [1])] true false ['/', 'a'] ['/', 'b']).2 =
      [(['a'], [1])] :=
  ⟨(rename_atomic_observable [(['a'], [1])] false false
      ['/', 'a'] ['/', 'b']).1 (by decide),
   (rename_atomic_observable [(['a'], [1])] true false
      ['/', 'a'] ['/', 'b']).2 (.injected 0) (by decide)⟩

-- ### C5: DeleteFile semantics

/-- C5, counterexample to the claim as stated: on a store holding the
directory `/d` (marker object plus a descendant), `DeleteFile "/d"`
returns success and removes nothing, instead of returning an error for
a directory path. -/
theorem deleteFile_directory_no_error :
    Driver.isDir [(['d', '/'], []), (['d', '/', 'x'], [1])] ['d'] = true ∧
    Driver.DeleteFile [(['d', '/'], []), (['d', '/', 'x'], [1])] ['/', 'd'] =
      (.ok (), [(['d', '/'], []), (['d', '/', 'x'], [1])]) := by decide

/-- C5 (amended): `DeleteFile` unconditionally issues a single-object
delete of the trimmed path: every other stored object is retained, and
when the path names no exact object (in particular when it names a
directory) it removes nothing and still returns success rather than an
error. -/
theorem deleteFile_single_object_semantics (s : Store) (path : Key) :
    Driver.DeleteFile s path = (.ok (), removeObject (buildMinioPath path) s) ∧
    (∀ kd, kd ∈ s → kd.1 ≠ buildMinioPath path →
      kd ∈ (Driver.DeleteFile s path).2) ∧
    (List.lookup (buildMinioPath path) s = none →
      (Driver.DeleteFile s path).2 = s) := by
  refine ⟨rfl, ?_, ?_⟩
  · intro kd hmem hne
    exact List.mem_filter.2 ⟨hmem, by simpa using hne⟩
  · intro hnone
    have hall := (lookup_eq_none_iff _ _).1 hnone
    show removeObject (buildMinioPath path) s = s
    simp only [removeObject]
    exact List.filter_eq_self.2 (fun kd hkd => by simpa using hall kd hkd)

/-- C5 witness: deleting `/a` keeps the unrelated object `/b`, and
deleting a directory path with no exact object leaves the store
untouched. -/
theorem deleteFile_single_object_semantics_witness :
    ((['b'], ([2] : Bytes)) ∈
      (Driver.DeleteFile [(['a'], [1]), (['b'], [2])] ['/', 'a']).2) ∧
    (Driver.DeleteFile [(['d', '/', 'x'], [1])] ['/', 'd']).2 =
      [(['d', '/', 'x'], [1])] :=
  ⟨(deleteFile_single_object_semantics [(['a'], [1]), (['b'], [2])]
      ['/', 'a']).2.1 (['b'], [2]) (by decide) (by decide),
   (deleteFile_single_object_semantics [(['d', '/', 'x'], [1])]
      ['/', 'd']).2.2 (by decide)⟩

-- ### C9: MakeDir across the two driver revisions

/-- C9, counterexample to the claim as stated: on an empty store the two
revisions do not behave identically — the current driver creates the
marker object `d/` while the older revision's `MakeDir` stores nothing. -/
theorem makeDir_revisions_differ :
    (Driver.MakeDir [] ['/', 'd']).2 ≠ (MinioDriver.MakeDir [] ['/', 'd']).2 := by
  decide

/-- C9 (amended): the current driver's `MakeDir` creates the directory
representation as a zero-length object whose key ends in `/`, but the
older revision's `MakeDir` is a no-op that creates no marker, so the two
revisions do not behave identically. -/
theorem makeDir_marker_and_old_noop (s : Store) (path : Key) :
    Driver.MakeDir s path = (.ok (), putObject (buildMinioDir path) [] s) ∧
    endsSlash (buildMinioDir path) = true ∧
    List.lookup (buildMinioDir path) (Driver.MakeDir s path).2 = some [] ∧
    MinioDriver.MakeDir s path = (.ok (), s) := by
  exact ⟨rfl, endsSlash_buildMinioDir path, lookup_putObject_self _ _ _, rfl⟩

-- ### C8: Stat of the root and of missing paths

/-- C8, counterexample to the claim as stated: the older revision's
`Stat` (also cited by the claim) decides directory-ness by listing with
the un-slashed trimmed path as prefix, so on a store holding only the
sibling object `dx` it reports `/d` as an existing directory, although
`/d` names no object (no key `d`) and no directory (no marker `d/`, no
stored key extending `d/`) — the case where the claim requires an
error. -/
theorem old_stat_missing_path_reports_directory :
    List.lookup (buildMinioPath ['/', 'd']) [(['d', 'x'], ([] : Bytes))] =
      none ∧
    specDirCondB [(['d', 'x'], ([] : Bytes))] ['/', 'd'] = false ∧
    MinioDriver.Stat [(['d', 'x'], ([] : Bytes))] ['/', 'd'] =
      .ok ⟨['/', 'd'], 0, true⟩ := by decide

/-- C8 (amended): `Stat("/")` succeeds and reports the root as an
existing directory in both revisions, for every state of the backing
store (including an empty bucket).  In the newer driver, for any other
path with no object at the exact key and no directory (no stored key
extends the slash-terminated form of the path), `Stat` returns an
error.  The older revision errs only under the stronger condition that
no stored key extends even the un-slashed trimmed path; otherwise it
can report such a path as an existing directory when a sibling key
merely shares the prefix. -/
theorem stat_root_and_missing (s : Store) (q : Key) :
    Driver.Stat s ['/'] = .ok ⟨['/'], 0, true⟩ ∧
    MinioDriver.Stat s ['/'] = .ok ⟨['/'], 0, true⟩ ∧
    (q ≠ ['/'] →
      List.lookup (buildMinioPath q) s = none →
      (∀ kd ∈ s, ¬ (buildMinioDir (buildMinioPath q)).isPrefixOf kd.1) →
      Driver.Stat s q = .error .notADirectory) ∧
    (q ≠ ['/'] →
      List.lookup (buildMinioPath q) s = none →
      (∀ kd ∈ s, ¬ (buildMinioPath q).isPrefixOf kd.1) →
      MinioDriver.Stat s q = .error .notADirectory) := by
  refine ⟨by simp [Driver.Stat], by simp [MinioDriver.Stat], ?_, ?_⟩
  · intro hq hnone hpfx
    exact stat_error_of_no_key s q hq hnone hpfx
  · intro hq hnone hpfx
    have hdir : MinioDriver.isDir s q = false := by
      simp only [MinioDriver.isDir, listNonRec,
        listNonRecGo_eq_nil _ s [] hpfx]
      rfl
    simp only [MinioDriver.Stat, if_neg hq, statObject, hnone]
    simp [hdir]

/-- C8 witness: a non-empty store still reports the root as a directory
in both revisions, and a path matching nothing errors in both. -/
theorem stat_root_and_missing_witness :
    Driver.Stat [(['x'], [1])] ['/'] = .ok ⟨['/'], 0, true⟩ ∧
    MinioDriver.Stat [(['x'], [1])] ['/'] = .ok ⟨['/'], 0, true⟩ ∧
    Driver.Stat [(['x'], [1])] ['/', 'a'] = .error .notADirectory ∧
    MinioDriver.Stat [(['x'], [1])] ['/', 'a'] = .error .notADirectory :=
  ⟨(stat_root_and_missing [(['x'], [1])] ['/', 'a']).1,
   (stat_root_and_missing [(['x'], [1])] ['/', 'a']).2.1,
   (stat_root_and_missing [(['x'], [1])] ['/', 'a']).2.2.1
     (by decide) (by decide) (by decide),
   (stat_root_and_missing [(['x'], [1])] ['/', 'a']).2.2.2
     (by decide) (by decide) (by decide)⟩

-- ### C4: DeleteDir and descendants

/-- C4, counterexample to the claim as stated: the older revision's
`DeleteDir` lists non-recursively, so on a store holding only the
depth-two descendant `d/x/y` it removes nothing (the only listed entry
is the common prefix `d/`, whose removal is a no-op), returns success,
and the descendant is still retrievable afterwards. -/
theorem old_deleteDir_misses_deep_descendants :
    (MinioDriver.DeleteDir [(['d', '/', 'x', '/', 'y'], [7])] ['/', 'd']).1 =
      .ok () ∧
    (MinioDriver.DeleteDir [(['d', '/', 'x', '/', 'y'], [7])] ['/', 'd']).2 =
      [(['d', '/', 'x', '/', 'y'], [7])] ∧
    Driver.Stat
      (MinioDriver.DeleteDir [(['d', '/', 'x', '/', 'y'], [7])] ['/', 'd']).2
      ['/', 'd', '/', 'x', '/', 'y'] =
      .ok ⟨['d', '/', 'x', '/', 'y'], 1, false⟩ := by decide

/-- C4 (amended): the current driver's `DeleteDir` succeeds and leaves
exactly the objects whose keys do not extend the trimmed path — in
particular the directory marker and every descendant at every depth is
removed — and `Stat` on any descendant path afterwards fails; the older
revision lists non-recursively and misses deeper descendants. -/
theorem deleteDir_removes_descendants (s : Store) (path q : Key) :
    (Driver.DeleteDir s path).1 = .ok () ∧
    (Driver.DeleteDir s path).2 =
      s.filter (fun kd => !(buildMinioPath path).isPrefixOf kd.1) ∧
    ((buildMinioDir path).isPrefixOf (buildMinioPath q) = true →
      (buildMinioPath q).head? ≠ some '/' →
      Driver.Stat (Driver.DeleteDir s path).2 q = .error .notADirectory) := by
  refine ⟨rfl, deleteDir_store s path, ?_⟩
  intro hpq hq0
  have hpq' : buildMinioDir path <+: buildMinioPath q :=
    List.isPrefixOf_iff_prefix.1 hpq
  have hp' : buildMinioPath path <+: buildMinioPath q :=
    (path_prefix_dir path).trans hpq'
  have hqroot : q ≠ ['/'] := by
    intro h
    subst h
    have : buildMinioDir path = [] := List.prefix_nil.1 hpq'
    exact buildMinioDir_ne_nil path this
  have hmem : ∀ kd ∈ (Driver.DeleteDir s path).2,
      ¬ (buildMinioPath path).isPrefixOf kd.1 := by
    intro kd hkd
    rw [deleteDir_store] at hkd
    have h2 := List.of_mem_filter hkd
    simp only [Bool.not_eq_true'] at h2
    simp [h2]
  refine stat_error_of_no_key _ q hqroot ?_ ?_
  · rw [lookup_eq_none_iff]
    intro kd hkd he
    exact hmem kd hkd (by
      rw [he]
      exact List.isPrefixOf_iff_prefix.2 hp')
  · intro kd hkd hdq
    refine hmem kd hkd (List.isPrefixOf_iff_prefix.2 ?_)
    have h1 : buildMinioPath q <+: buildMinioDir (buildMinioPath q) := by
      have h0 := path_prefix_dir (buildMinioPath q)
      rwa [buildMinioPath_eq_self (buildMinioPath q) hq0] at h0
    exact hp'.trans (h1.trans (List.isPrefixOf_iff_prefix.1 hdq))

/-- C4 witness: deleting `/d` removes the marker, a direct child and a
depth-two descendant while keeping an unrelated object, and `Stat` on
the removed descendant fails. -/
theorem deleteDir_removes_descendants_witness :
    (Driver.DeleteDir
        [(['d', '/'], []), (['d', '/', 'x'], [1]),
         (['d', '/', 'x', '/', 'y'], [2]), (['e'], [3])] ['/', 'd']).2 =
      [(['e'], [3])] ∧
    Driver.Stat
      (Driver.DeleteDir
        [(['d', '/'], []), (['d', '/', 'x'], [1]),
         (['d', '/', 'x', '/', 'y'], [2]), (['e'], [3])] ['/', 'd']).2
      ['/', 'd', '/', 'x'] = .error .notADirectory := by
  constructor
  · rw [(deleteDir_removes_descendants
      [(['d', '/'], []), (['d', '/', 'x'], [1]),
       (['d', '/', 'x', '/', 'y'], [2]), (['e'], [3])] ['/', 'd']
      ['/', 'd', '/', 'x']).2.1]
    decide
  · exact (deleteDir_removes_descendants
      [(['d', '/'], []), (['d', '/', 'x'], [1]),
       (['d', '/', 'x', '/', 'y'], [2]), (['e'], [3])] ['/', 'd']
      ['/', 'd', '/', 'x']).2.2 (by decide) (by decide)

-- ### C10: Stat's directory characterization for the current driver

/-- C10, counterexample to the claim as stated: with an object stored at
the exact key `d` alongside the descendant key `d/x`, the claim's
marker-or-prefix condition holds for `/d`, yet `Stat` reports `/d` as a
plain file (`IsDir` false), because the exact-key stat succeeds first. -/
theorem stat_object_shadows_directory :
    specDirCondB [(['d'], []), (['d', '/', 'x'], [])] ['/', 'd'] = true ∧
    Driver.Stat [(['d'], []), (['d', '/', 'x'], [])] ['/', 'd'] =
      .ok ⟨['d'], 0, false⟩ := by decide

/-- C10 (amended): for a non-root path whose trimmed form does not end
in `/`, when no object is stored at the exact trimmed key, `Stat`
reports an existing directory exactly when the claim's condition holds
(a marker at the slash-terminated key, or some stored key extending it),
and errors when it does not; but when an object is stored at the exact
key, `Stat` reports it with `IsDir` false even if the directory
condition also holds. -/
theorem stat_isdir_characterization (s : Store) (q : Key)
    (hq : q ≠ ['/']) (hq0 : (buildMinioPath q).head? ≠ some '/')
    (hsl : endsSlash (buildMinioPath q) = false) :
    (List.lookup (buildMinioPath q) s = none →
      ((Driver.Stat s q = .ok ⟨q, 0, true⟩ ↔ specDirCondB s q = true) ∧
       (specDirCondB s q = false →
         Driver.Stat s q = .error .notADirectory))) ∧
    (∀ d, List.lookup (buildMinioPath q) s = some d →
      Driver.Stat s q = .ok ⟨buildMinioPath q, (d.length : Int), false⟩) := by
  have hdirq : buildMinioDir (buildMinioPath q) = buildMinioPath q ++ ['/'] := by
    simp only [buildMinioDir, buildMinioPath_eq_self (buildMinioPath q) hq0]
    rw [if_neg (by simp [hsl])]
  constructor
  · intro hnone
    have hiff : Driver.isDir s (buildMinioPath q) = specDirCondB s q := by
      simp only [Driver.isDir, specDirCondB, hdirq]
      cases hmk : List.lookup (buildMinioPath q ++ ['/']) s with
      | some d =>
        simp [hmk, endsSlash, List.getLast?_concat]
      | none =>
        simp only [hmk, Option.isSome_none, Bool.false_or]
        cases hany : s.any
            (fun kd => (buildMinioPath q ++ ['/']).isPrefixOf kd.1) with
        | true =>
          obtain ⟨kd, hkd, hp⟩ := List.any_eq_true.1 hany
          have hne : listNonRecGo (buildMinioPath q ++ ['/']) s [] ≠ [] := by
            intro hnil
            exact ((listNonRecGo_nil_iff _ s).1 hnil kd hkd) hp
          simp only [listNonRec]
          cases hgo : listNonRecGo (buildMinioPath q ++ ['/']) s [] with
          | nil => exact absurd hgo hne
          | cons a l => simp
        | false =>
          have hnil : listNonRecGo (buildMinioPath q ++ ['/']) s [] = [] := by
            refine listNonRecGo_eq_nil _ s [] ?_
            intro kd hkd hp
            have hcontra : s.any
                (fun kd => (buildMinioPath q ++ ['/']).isPrefixOf kd.1) = true :=
              List.any_eq_true.2 ⟨kd, hkd, hp⟩
            rw [hany] at hcontra
            cases hcontra
          simp [listNonRec, hnil]
    constructor
    · constructor
      · intro hstat
        by_contra hc
        have hcond : specDirCondB s q = false := by
          cases h : specDirCondB s q
          · rfl
          · exact absurd h hc
        have hdir : Driver.isDir s (buildMinioPath q) = false :=
          hiff.trans hcond
        have : Driver.Stat s q = .error .notADirectory := by
          simp only [Driver.Stat, if_neg hq, statObject, hnone]
          simp [hdir]
        rw [this] at hstat
        cases hstat
      · intro hcond
        have hdir : Driver.isDir s (buildMinioPath q) = true :=
          hiff.trans hcond
        simp only [Driver.Stat, if_neg hq, statObject, hnone]
        simp [hdir]
    · intro hcond
      have hdir : Driver.isDir s (buildMinioPath q) = false :=
        hiff.trans hcond
      simp only [Driver.Stat, if_neg hq, statObject, hnone]
      simp [hdir]
  · intro d hsome
    simp only [Driver.Stat, if_neg hq, statObject, hsome]
    simp [hsl]

/-- C10 witness: a prefix-only directory is reported as a directory, a
path matching nothing errors, and an exact object is reported as a
file. -/
theorem stat_isdir_characterization_witness :
    Driver.Stat [(['d', '/', 'x'], [])] ['/', 'd'] = .ok ⟨['/', 'd'], 0, true⟩ ∧
    Driver.Stat [(['d', '/', 'x'], [])] ['/', 'z'] = .error .notADirectory ∧
    Driver.Stat [(['f'], [1, 2])] ['/', 'f'] = .ok ⟨['f'], 2, false⟩ :=
  ⟨((stat_isdir_characterization [(['d', '/', 'x'], [])] ['/', 'd']
      (by decide) (by decide) (by decide)).1 (by decide)).1.2 (by decide),
   ((stat_isdir_characterization [(['d', '/', 'x'], [])] ['/', 'z']
      (by decide) (by decide) (by decide)).1 (by decide)).2 (by decide),
   (stat_isdir_characterization [(['f'], [1, 2])] ['/', 'f']
      (by decide) (by decide) (by decide)).2 [1, 2] (by decide)⟩

-- ### C7: login hooks (session engine modelled from the spec)

/-- C7: for every login attempt (`USER` then `PASS`), the hook list is
exactly `BeforeLoginUser` followed by one `AfterUserLogin` whose
`passMatched` is the credential check's result — so `BeforeLoginUser`
fires before the check, `AfterUserLogin` fires exactly once after it
regardless of the outcome — a failed check leaves the session
`Unauthenticated`, a successful one authenticates it, and a second
`USER` before a successful `PASS` restarts the sequence. -/
theorem login_hooks_fire_once (check : Key → Key → Bool) (st0 : AuthState)
    (u pass : Key) :
    (loginAttempt check st0 u pass).2 =
      [.beforeLoginUser u, .afterUserLogin u pass (check u pass)] ∧
    ((loginAttempt check st0 u pass).2.countP isAfterUserLogin) = 1 ∧
    (check u pass = false →
      (loginAttempt check st0 u pass).1 = .unauthenticated) ∧
    (check u pass = true →
      (loginAttempt check st0 u pass).1 = .authenticated u) ∧
    (∀ u', handleUSER u' (.userNamed u) = .userNamed u') := by
  refine ⟨rfl, ?_, ?_, ?_, fun u' => rfl⟩
  · simp [loginAttempt, handleUSER, handlePASS, List.countP_cons,
      isAfterUserLogin]
  · intro h
    simp [loginAttempt, handleUSER, handlePASS, h]
  · intro h
    simp [loginAttempt, handleUSER, handlePASS, h]

/-- C7 witness: a failing check leaves the session unauthenticated and a
passing check authenticates it. -/
theorem login_hooks_fire_once_witness :
    (loginAttempt (fun _ _ => false) .unauthenticated ['a'] ['b']).1 =
      .unauthenticated ∧
    (loginAttempt (fun _ _ => true) .unauthenticated ['a'] ['b']).1 =
      .authenticated ['a'] :=
  ⟨(login_hooks_fire_once (fun _ _ => false) .unauthenticated
      ['a'] ['b']).2.2.1 rfl,
   (login_hooks_fire_once (fun _ _ => true) .unauthenticated
      ['a'] ['b']).2.2.2.1 rfl⟩

-- ### C6: ListDir enumeration lemmas

theorem lookup_none_of_not_mem (k : Key) (tl : Store)
    (h : k ∉ tl.map Prod.fst) : List.lookup k tl = none := by
  rw [lookup_eq_none_iff]
  intro kd hkd he
  exact h (he ▸ List.mem_map_of_mem Prod.fst hkd)

theorem dropWhile_slash (rest : Key) (hs : '/' ∈ rest) :
    ∃ u, rest.dropWhile (fun c => c ≠ '/') = '/' :: u := by
  induction rest with
  | nil => cases hs
  | cons c r ih =>
    by_cases hc : c = '/'
    · subst hc
      refine ⟨r, ?_⟩
      rw [List.dropWhile_cons, if_neg (by simp)]
    · have hs' : '/' ∈ r := by
        rcases List.mem_cons.1 hs with h | h
        · exact absurd h.symm hc
        · exact h
      obtain ⟨u, hu⟩ := ih hs'
      refine ⟨u, ?_⟩
      rw [List.dropWhile_cons, if_pos (by simpa using hc)]
      exact hu

theorem slash_decomp (rest : Key) (hs : '/' ∈ rest) :
    rest = rest.takeWhile (fun c => c ≠ '/') ++
      '/' :: (rest.dropWhile (fun c => c ≠ '/')).tail := by
  obtain ⟨u, hu⟩ := dropWhile_slash rest hs
  calc rest = rest.takeWhile (fun c => c ≠ '/') ++
        rest.dropWhile (fun c => c ≠ '/') :=
        (List.takeWhile_append_dropWhile _ _).symm
    _ = _ := by rw [hu]; rfl

theorem eq_dropLast_slash (name : Key) (h : name.getLast? = some '/') :
    name = name.dropLast ++ ['/'] := by
  induction name with
  | nil => cases h
  | cons c r ih =>
    cases r with
    | nil =>
      simp only [List.getLast?_singleton, Option.some.injEq] at h
      simp [h]
    | cons c2 r2 =>
      rw [List.getLast?_cons_cons] at h
      have ih2 := ih h
      calc c :: c2 :: r2 = c :: ((c2 :: r2).dropLast ++ ['/']) := by
            rw [← ih2]
        _ = (c :: c2 :: r2).dropLast ++ ['/'] := by
            rw [List.dropLast_cons₂]
            rfl

theorem dirNameB_decomp (name : Key) (h : dirNameB name = true) :
    name = name.dropLast ++ ['/'] ∧ ∀ c ∈ name.dropLast, c ≠ '/' := by
  simp only [dirNameB, Bool.and_eq_true, beq_iff_eq] at h
  obtain ⟨h1, h2⟩ := h
  refine ⟨eq_dropLast_slash name h1, ?_⟩
  intro c hc
  have := List.all_eq_true.1 h2 c hc
  simpa using this

theorem dirNameB_concat (t : Key) (ht : ∀ c ∈ t, c ≠ '/') :
    dirNameB (t ++ ['/']) = true := by
  simp only [dirNameB, Bool.and_eq_true, beq_iff_eq]
  refine ⟨List.getLast?_concat t, ?_⟩
  rw [List.dropLast_concat, List.all_eq_true]
  intro x hx
  simpa using ht x hx

theorem dir_prefix_iff : ∀ (d t u : Key), (∀ c ∈ d, c ≠ '/') →
    (∀ c ∈ t, c ≠ '/') → ((d ++ ['/'] <+: t ++ '/' :: u) ↔ d = t)
  | [], [], u, _, _ => by simp
  | [], c :: t', u, _, ht => by
    simp only [List.nil_append, List.cons_append]
    constructor
    · intro h
      have h2 := (List.cons_prefix_cons.1 h).1
      exact absurd h2.symm (ht c (by simp))
    · intro h; cases h
  | a :: d', [], u, hd, _ => by
    simp only [List.cons_append, List.nil_append]
    constructor
    · intro h
      have h2 := (List.cons_prefix_cons.1 h).1
      exact absurd h2 (hd a (by simp))
    · intro h; cases h
  | a :: d', c :: t', u, hd, ht => by
    simp only [List.cons_append]
    rw [List.cons_prefix_cons]
    rw [dir_prefix_iff d' t' u (fun x hx => hd x (by simp [hx]))
      (fun x hx => ht x (by simp [hx]))]
    constructor
    · rintro ⟨rfl, rfl⟩; rfl
    · intro h
      injection h with h1 h2
      exact ⟨h1, h2⟩

theorem cp_eq_iff (pfx name rest : Key) (hdn : dirNameB name = true)
    (hs : '/' ∈ rest) :
    ((pfx ++ name).isPrefixOf (pfx ++ rest) = true) ↔
      name = rest.takeWhile (fun c => c ≠ '/') ++ ['/'] := by
  obtain ⟨hne, hall⟩ := dirNameB_decomp name hdn
  rw [List.isPrefixOf_iff_prefix, List.prefix_append_right_inj]
  constructor
  · intro h
    rw [hne, slash_decomp rest hs] at h
    have heq := (dir_prefix_iff name.dropLast
      (rest.takeWhile (fun c => c ≠ '/'))
      ((rest.dropWhile (fun c => c ≠ '/')).tail) hall
      (fun c hc => by simpa using List.mem_takeWhile_imp hc)).1 h
    rw [hne, heq]
  · intro h
    rw [h]
    refine ⟨(rest.dropWhile (fun c => c ≠ '/')).tail, ?_⟩
    rw [List.append_assoc]
    exact (slash_decomp rest hs).symm

theorem childNames_cons (pfx : Key) (o : ObjectInfo) (l : List ObjectInfo) :
    childNames pfx (o :: l) =
      (if o.key = pfx then [] else
        [if pfx.isPrefixOf o.key then o.key.drop pfx.length else o.key]) ++
      childNames pfx l := by
  simp only [childNames, List.filter_cons]
  by_cases h : o.key = pfx
  · rw [if_neg (by simpa using h), if_pos h, List.nil_append]
  · rw [if_pos (by simpa using h), if_neg h, List.map_cons,
      List.singleton_append]

theorem rhs_file_step (pfx name k : Key) (d : Bytes) (tl : Store)
    (hne : fileNameB name = true → k ≠ pfx ++ name) :
    (if fileNameB name &&
        (List.lookup (pfx ++ name) ((k, d) :: tl)).isSome then 1 else 0) =
    (if fileNameB name &&
        (List.lookup (pfx ++ name) tl).isSome then 1 else 0) := by
  by_cases hfn : fileNameB name
  · have hk := hne hfn
    have hb : (pfx ++ name == k) = false := by
      rw [beq_eq_false_iff_ne]
      exact fun e => hk e.symm
    have hl : List.lookup (pfx ++ name) ((k, d) :: tl) =
        List.lookup (pfx ++ name) tl := by
      simp [List.lookup, hb]
    rw [hl]
  · have hfn' : fileNameB name = false := by simpa using hfn
    rw [hfn']
    simp

theorem count_childNames_dir (pfx name : Key) (hdn : dirNameB name = true) :
    ∀ (s : Store) (seen : List Key),
    (childNames pfx (listNonRecGo pfx s seen)).count name =
      (if pfx ++ name ∈ seen then 0
       else if s.any (fun kd => (pfx ++ name).isPrefixOf kd.1) then 1
       else 0) := by
  intro s
  induction s with
  | nil =>
    intro seen
    simp [childNames, listNonRecGo]
  | cons hd tl ih =>
    intro seen
    obtain ⟨k, d⟩ := hd
    simp only [listNonRecGo]
    by_cases hpk : pfx.isPrefixOf k
    · obtain ⟨rest, rfl⟩ := List.isPrefixOf_iff_prefix.1 hpk
      rw [if_pos hpk, List.drop_left]
      by_cases hs : '/' ∈ rest
      · rw [if_pos hs]
        by_cases hseen :
            pfx ++ rest.takeWhile (fun c => c ≠ '/') ++ ['/'] ∈ seen
        · rw [if_pos hseen, ih seen]
          rw [List.append_assoc] at hseen
          by_cases hin : pfx ++ name ∈ seen
          · rw [if_pos hin, if_pos hin]
          · rw [if_neg hin, if_neg hin]
            have hhead : (pfx ++ name).isPrefixOf (pfx ++ rest) = false := by
              rw [Bool.eq_false_iff]
              intro hcontra
              apply hin
              rw [(cp_eq_iff pfx name rest hdn hs).1 hcontra]
              exact hseen
            rw [List.any_cons, hhead, Bool.false_or]
        · rw [if_neg hseen, childNames_cons]
          rw [List.append_assoc] at hseen ⊢
          have hkey : pfx ++ (rest.takeWhile (fun c => c ≠ '/') ++ ['/']) ≠
              pfx := by
            rw [Ne, List.append_right_eq_self]
            simp
          rw [if_neg hkey]
          have hpp : pfx.isPrefixOf
              (pfx ++ (rest.takeWhile (fun c => c ≠ '/') ++ ['/'])) = true :=
            List.isPrefixOf_iff_prefix.2 (List.prefix_append _ _)
          rw [if_pos hpp, List.drop_left, List.singleton_append,
            List.count_cons, ih]
          by_cases hnc : name = rest.takeWhile (fun c => c ≠ '/') ++ ['/']
          · have hbeq :
                (rest.takeWhile (fun c => c ≠ '/') ++ ['/'] == name) = true :=
              beq_iff_eq.2 hnc.symm
            rw [hbeq]
            have hmem1 : pfx ++ name ∈
                (pfx ++ (rest.takeWhile (fun c => c ≠ '/') ++ ['/'])) :: seen := by
              rw [hnc]
              exact List.mem_cons_self _ _
            rw [if_pos hmem1]
            have hnin : pfx ++ name ∉ seen := by
              intro hcontra
              apply hseen
              rw [← hnc]
              exact hcontra
            rw [if_neg hnin]
            have hhead : (pfx ++ name).isPrefixOf (pfx ++ rest) = true :=
              (cp_eq_iff pfx name rest hdn hs).2 hnc
            rw [List.any_cons, hhead, Bool.true_or, if_pos rfl]
          · have hbeq :
                (rest.takeWhile (fun c => c ≠ '/') ++ ['/'] == name) = false :=
              beq_eq_false_iff_ne.2 (fun e => hnc e.symm)
            rw [hbeq]
            have hmem2 : (pfx ++ name ∈
                (pfx ++ (rest.takeWhile (fun c => c ≠ '/') ++ ['/'])) :: seen) ↔
                pfx ++ name ∈ seen := by
              rw [List.mem_cons]
              constructor
              · rintro (h | h)
                · exact absurd (List.append_cancel_left h) hnc
                · exact h
              · exact Or.inr
            by_cases hin : pfx ++ name ∈ seen
            · rw [if_pos (hmem2.2 hin), if_pos hin]
              simp
            · rw [if_neg (fun hc => hin (hmem2.1 hc)), if_neg hin]
              have hhead :
                  (pfx ++ name).isPrefixOf (pfx ++ rest) = false := by
                rw [Bool.eq_false_iff]
                intro hcontra
                exact hnc ((cp_eq_iff pfx name rest hdn hs).1 hcontra)
              rw [List.any_cons, hhead, Bool.false_or]
              simp
      · rw [if_neg hs, childNames_cons]
        by_cases hkp : pfx ++ rest = pfx
        · rw [if_pos hkp, List.nil_append, ih seen]
          have hrest0 : rest = [] := List.append_right_eq_self.1 hkp
          have hname0 : name ≠ [] := by
            intro h0
            rw [h0] at hdn
            simp [dirNameB] at hdn
          have hhead : (pfx ++ name).isPrefixOf (pfx ++ rest) = false := by
            rw [Bool.eq_false_iff]
            intro hcontra
            rw [List.isPrefixOf_iff_prefix,
              List.prefix_append_right_inj, hrest0] at hcontra
            exact hname0 (List.prefix_nil.1 hcontra)
          by_cases hin : pfx ++ name ∈ seen
          · rw [if_pos hin, if_pos hin]
          · rw [if_neg hin, if_neg hin]
            rw [List.any_cons, hhead, Bool.false_or]
        · rw [if_neg hkp]
          have hpp : pfx.isPrefixOf (pfx ++ rest) = true :=
            List.isPrefixOf_iff_prefix.2 (List.prefix_append _ _)
          rw [if_pos hpp, List.drop_left, List.singleton_append,
            List.count_cons, ih seen]
          obtain ⟨hne2, _⟩ := dirNameB_decomp name hdn
          have hbeq : (rest == name) = false := by
            rw [beq_eq_false_iff_ne]
            intro hcontra
            apply hs
            rw [hcontra, hne2]
            simp
          rw [hbeq]
          have hhead : (pfx ++ name).isPrefixOf (pfx ++ rest) = false := by
            rw [Bool.eq_false_iff]
            intro hcontra
            rw [List.isPrefixOf_iff_prefix,
              List.prefix_append_right_inj] at hcontra
            apply hs
            refine hcontra.subset ?_
            rw [hne2]
            simp
          by_cases hin : pfx ++ name ∈ seen
          · rw [if_pos hin, if_pos hin]
            simp
          · rw [if_neg hin, if_neg hin]
            rw [List.any_cons, hhead, Bool.false_or]
            simp
    · rw [if_neg hpk, ih seen]
      have hhead : (pfx ++ name).isPrefixOf k = false := by
        rw [Bool.eq_false_iff]
        intro hcontra
        apply hpk
        exact List.isPrefixOf_iff_prefix.2
          ((List.prefix_append pfx name).trans
            (List.isPrefixOf_iff_prefix.1 hcontra))
      by_cases hin : pfx ++ name ∈ seen
      · rw [if_pos hin, if_pos hin]
      · rw [if_neg hin, if_neg hin]
        rw [List.any_cons, hhead, Bool.false_or]

theorem count_childNames_file (pfx name : Key) (hdn : dirNameB name = false) :
    ∀ (s : Store) (seen : List Key), (s.map Prod.fst).Nodup →
    (childNames pfx (listNonRecGo pfx s seen)).count name =
      (if fileNameB name && (List.lookup (pfx ++ name) s).isSome then 1
       else 0) := by
  intro s
  induction s with
  | nil =>
    intro seen _
    simp [childNames, listNonRecGo, List.lookup]
  | cons hd tl ih =>
    intro seen hnd
    obtain ⟨k, d⟩ := hd
    have hnd' : (tl.map Prod.fst).Nodup := by
      rw [List.map_cons, List.nodup_cons] at hnd
      exact hnd.2
    have hknotin : k ∉ tl.map Prod.fst := by
      rw [List.map_cons, List.nodup_cons] at hnd
      exact hnd.1
    simp only [listNonRecGo]
    by_cases hpk : pfx.isPrefixOf k
    · obtain ⟨rest, rfl⟩ := List.isPrefixOf_iff_prefix.1 hpk
      rw [if_pos hpk, List.drop_left]
      by_cases hs : '/' ∈ rest
      · rw [if_pos hs]
        have hbridge : fileNameB name = true → pfx ++ rest ≠ pfx ++ name := by
          intro hfn hcontra
          have hrn : rest = name := List.append_cancel_left hcontra
          simp only [fileNameB, Bool.and_eq_true, decide_eq_true_eq,
            List.all_eq_true] at hfn
          have := hfn.2 '/' (hrn ▸ hs)
          simp at this
        by_cases hseen :
            pfx ++ rest.takeWhile (fun c => c ≠ '/') ++ ['/'] ∈ seen
        · rw [if_pos hseen, ih seen hnd',
            rhs_file_step pfx name (pfx ++ rest) d tl hbridge]
        · rw [if_neg hseen, childNames_cons]
          rw [List.append_assoc] at hseen ⊢
          have hkey : pfx ++ (rest.takeWhile (fun c => c ≠ '/') ++ ['/']) ≠
              pfx := by
            rw [Ne, List.append_right_eq_self]
            simp
          rw [if_neg hkey]
          have hpp : pfx.isPrefixOf
              (pfx ++ (rest.takeWhile (fun c => c ≠ '/') ++ ['/'])) = true :=
            List.isPrefixOf_iff_prefix.2 (List.prefix_append _ _)
          rw [if_pos hpp, List.drop_left, List.singleton_append,
            List.count_cons, ih _ hnd']
          have hbeq :
              (rest.takeWhile (fun c => c ≠ '/') ++ ['/'] == name) = false := by
            rw [beq_eq_false_iff_ne]
            intro hcontra
            rw [← hcontra] at hdn
            rw [dirNameB_concat (rest.takeWhile (fun c => c ≠ '/'))
              (fun c hc => by simpa using List.mem_takeWhile_imp hc)] at hdn
            cases hdn
          rw [hbeq, rhs_file_step pfx name (pfx ++ rest) d tl hbridge]
          simp
      · rw [if_neg hs, childNames_cons]
        by_cases hkp : pfx ++ rest = pfx
        · rw [if_pos hkp, List.nil_append, ih seen hnd']
          have hrest0 : rest = [] := List.append_right_eq_self.1 hkp
          have hbridge : fileNameB name = true → pfx ++ rest ≠ pfx ++ name := by
            intro hfn hcontra
            have hrn : rest = name := List.append_cancel_left hcontra
            simp only [fileNameB, Bool.and_eq_true, decide_eq_true_eq] at hfn
            exact hfn.1 (hrn ▸ hrest0)
          rw [rhs_file_step pfx name (pfx ++ rest) d tl hbridge]
        · rw [if_neg hkp]
          have hpp : pfx.isPrefixOf (pfx ++ rest) = true :=
            List.isPrefixOf_iff_prefix.2 (List.prefix_append _ _)
          rw [if_pos hpp, List.drop_left, List.singleton_append,
            List.count_cons, ih seen hnd']
          cases hbq : (rest == name) with
          | true =>
            have hrn : rest = name := beq_iff_eq.1 hbq
            subst hrn
            have hrne : rest ≠ [] := by
              intro h0
              apply hkp
              rw [h0, List.append_nil]
            have hfn : fileNameB rest = true := by
              simp only [fileNameB, Bool.and_eq_true, decide_eq_true_eq,
                List.all_eq_true]
              exact ⟨hrne, fun x hx he => hs (he ▸ hx)⟩
            have hlooktl : List.lookup (pfx ++ rest) tl = none :=
              lookup_none_of_not_mem _ tl hknotin
            have hlooks : List.lookup (pfx ++ rest) ((pfx ++ rest, d) :: tl) =
                some d := by
              simp [List.lookup]
            rw [hlooktl, hlooks, hfn]
            simp
          | false =>
            have hbridge : fileNameB name = true →
                pfx ++ rest ≠ pfx ++ name := by
              intro _ hcontra
              have hrn : rest = name := List.append_cancel_left hcontra
              rw [beq_iff_eq.2 hrn] at hbq
              cases hbq
            rw [rhs_file_step pfx name (pfx ++ rest) d tl hbridge]
            simp
    · rw [if_neg hpk, ih seen hnd']
      have hbridge : fileNameB name = true → k ≠ pfx ++ name := by
        intro _ hcontra
        apply hpk
        rw [hcontra]
        exact List.isPrefixOf_iff_prefix.2 (List.prefix_append _ _)
      rw [rhs_file_step pfx name k d tl hbridge]

theorem listDirGo_visited (p : Key) (visit : StatInfo → Option MErr)
    (hv : ∀ i, visit i = none) :
    ∀ entries : List ObjectInfo,
    listDirGo p visit (entries.map .obj) =
      ((entries.filter (fun o => o.key ≠ p)).map (toChildInfo p), none) := by
  intro entries
  induction entries with
  | nil => rfl
  | cons o rest ih =>
    rw [List.map_cons]
    simp only [listDirGo]
    by_cases h : o.key = p
    · rw [if_pos h, ih, List.filter_cons, if_neg (by simpa using h)]
    · rw [if_neg h]
      simp only [hv]
      rw [ih, List.filter_cons, if_pos (by simpa using h), List.map_cons]

theorem visitedNames_eq_childNames (p : Key) (entries : List ObjectInfo) :
    (((entries.filter (fun o => o.key ≠ p)).map (toChildInfo p)).map
      StatInfo.name) = childNames p entries := by
  rw [childNames, List.map_map]
  rfl

-- ### C6: ListDir children and error propagation

/-- C6, counterexample to the claim as stated: the older revision's
`ListDir` lists with the un-slashed trimmed path as prefix, so for the
directory `/d` over a store holding only the sibling object `dx` it
invokes the callback once — on an entry that is not an immediate child
of `/d` (the directory has no children at all). -/
theorem old_listDir_visits_non_child :
    (MinioDriver.ListDir [(['d', 'x'], [])] ['/', 'd'] (fun _ => none)).1 =
      [⟨['d', 'x'], 0, false⟩] ∧
    specImmChildB [(['d', 'x'], [])] (buildMinioDir ['/', 'd']) ['d', 'x'] =
      false := by decide

/-- C6 (amended): for the current driver over a well-formed store (no
duplicate keys), `ListDir` invokes the callback exactly once per
immediate child of the directory (subdirectory entries once each, no
recursion into deeper levels, the directory's own marker skipped) and
finishes without error when the callback never fails; an enumeration
error stops the loop at once and is returned, and a callback error stops
the loop and is returned; the older revision may also visit sibling
entries whose keys merely share the un-slashed prefix. -/
theorem listDir_immediate_children_and_errors (s : Store) (path : Key)
    (visit : StatInfo → Option MErr) (hnd : (s.map Prod.fst).Nodup)
    (hv : ∀ i, visit i = none) :
    ((Driver.ListDir s path visit).2 = none ∧
     ∀ name, ((Driver.ListDir s path visit).1.map StatInfo.name).count name =
       (if specImmChildB s (listDirPre path) name then 1 else 0)) ∧
    (∀ (v : StatInfo → Option MErr) (e : MErr) (rest : List LEntry),
      listDirGo (listDirPre path) v (.fail e :: rest) = ([], some e)) ∧
    (∀ (v : StatInfo → Option MErr) (o : ObjectInfo) (e : MErr)
        (rest : List LEntry), o.key ≠ listDirPre path →
      v (toChildInfo (listDirPre path) o) = some e →
      listDirGo (listDirPre path) v (.obj o :: rest) =
        ([toChildInfo (listDirPre path) o], some e)) := by
  refine ⟨⟨?_, ?_⟩, ?_, ?_⟩
  · rw [Driver.ListDir, listDirGo_visited _ _ hv]
  · intro name
    rw [Driver.ListDir, listDirGo_visited _ _ hv]
    dsimp only
    rw [visitedNames_eq_childNames]
    by_cases hdn : dirNameB name = true
    · have hsc : specImmChildB s (listDirPre path) name =
          s.any (fun kd => (listDirPre path ++ name).isPrefixOf kd.1) := by
        simp [specImmChildB, hdn]
      rw [hsc, listNonRec, count_childNames_dir _ _ hdn s []]
      simp
    · have hdn' : dirNameB name = false := by simpa using hdn
      have hsc : specImmChildB s (listDirPre path) name =
          (fileNameB name &&
            (List.lookup (listDirPre path ++ name) s).isSome) := by
        simp [specImmChildB, hdn']
      rw [hsc, listNonRec, count_childNames_file _ _ hdn' s [] hnd]
  · intro v e rest
    rfl
  · intro v o e rest hne hve
    simp only [listDirGo]
    rw [if_neg hne, hve]

/-- C6 witness: over a store with the marker `d/`, the file `d/a` and
the deeper key `d/b/c`, listing `/d` visits the child `a` exactly once,
and an enumeration error entry stops the loop and is propagated. -/
theorem listDir_immediate_children_and_errors_witness :
    (((Driver.ListDir
        [(['d', '/'], []), (['d', '/', 'a'], [1]),
         (['d', '/', 'b', '/', 'c'], [2])]
        ['/', 'd'] (fun _ => none)).1.map StatInfo.name).count ['a'] = 1) ∧
    listDirGo (listDirPre ['/', 'd']) (fun _ => none)
      [.fail .noSuchKey] = ([], some .noSuchKey) :=
  ⟨by
    rw [((listDir_immediate_children_and_errors
      [(['d', '/'], []), (['d', '/', 'a'], [1]),
       (['d', '/', 'b', '/', 'c'], [2])]
      ['/', 'd'] (fun _ => none) (by decide) (fun _ => rfl)).1.2 ['a'])]
    decide,
   (listDir_immediate_children_and_errors
      [(['d', '/'], []), (['d', '/', 'a'], [1]),
       (['d', '/', 'b', '/', 'c'], [2])]
      ['/', 'd'] (fun _ => none) (by decide) (fun _ => rfl)).2.1
      (fun _ => none) .noSuchKey []⟩
